import Mathlib

/-!
Verification development for the `dndrules` dice/rules library.

The Python modules `dice.py`, `abilities.py`, `character.py` and `rules.py`
are shallowly embedded below.  Python's arbitrary-precision integers become
`Nat`/`Int`; fallible functions (those that may raise `ValueError`/`KeyError`)
return `Except String _`; the injectable random source `random.Random` is
modelled as an abstract stream of naturals together with a position, and every
`randint` call consumes exactly one stream element, so the order and number of
draws is explicit in the state threading.
-/

namespace Dnd

instance {ε α : Type} [DecidableEq ε] [DecidableEq α] : DecidableEq (Except ε α) :=
  fun a b =>
    match a, b with
    | .ok x, .ok y => if h : x = y then .isTrue (by rw [h]) else .isFalse (by simp [h])
    | .error e, .error f => if h : e = f then .isTrue (by rw [h]) else .isFalse (by simp [h])
    | .ok _, .error _ => .isFalse (by simp)
    | .error _, .ok _ => .isFalse (by simp)

/-- Model of the injectable random source (`random.Random`): an abstract
infinite stream of naturals plus a read position.  Each `randint` call
consumes exactly one element. -/
structure Rng where
  stream : Nat → Nat
  pos : Nat

/-- `rng.randint(lo, hi)`: one uniform draw in `[lo, hi]`, modelled by mapping
the next stream element into the range and advancing the position. -/
def Rng.randint (rng : Rng) (lo hi : Nat) : Nat × Rng :=
  (lo + rng.stream rng.pos % (hi + 1 - lo), ⟨rng.stream, rng.pos + 1⟩)

/-! ### dice.py: data model -/

/-- `DiceTerm` dataclass from `dice.py`: `count` dice of `size` faces with a
`sign` of `+1`/`-1`.  The Python `__post_init__` invariants (`count ≥ 0`,
`size > 0`, `sign ∈ {1,-1}`) are enforced at the construction sites in the
parser; `count`/`size` are stored as `Nat`. -/
structure DiceTerm where
  count : Nat
  size : Nat
  sign : Int
deriving DecidableEq, Repr

/-- `ModifierTerm` dataclass from `dice.py`: a flat integer modifier. -/
structure ModifierTerm where
  value : Int
deriving DecidableEq, Repr

/-- `DiceExpression` named tuple from `dice.py`. -/
structure DiceExpression where
  dice : List DiceTerm
  modifiers : List ModifierTerm
deriving DecidableEq, Repr

/-- `DiceExpression.modifier_total`: sum of all modifier values. -/
def DiceExpression.modifier_total (e : DiceExpression) : Int :=
  (e.modifiers.map ModifierTerm.value).sum

/-- `DiceRollResult` named tuple from `dice.py`. -/
structure DiceRollResult where
  total : Int
  dice_results : List (List Int)
  modifiers : List Int
deriving DecidableEq, Repr

/-! ### dice.py: tokenisation (`_TOKEN_RE.findall`) -/

/-- Whether a character is a `+`/`-` sign (the regex class `[+-]`). -/
def isSign (c : Char) : Bool := c = '+' || c = '-'

/-- Negation of `isSign` (the regex class `[^+-]`). -/
def notSign (c : Char) : Bool := !(isSign c)

/-- `re.findall(r"[+-]?[^+-]+", s)`: scan left to right; at a non-sign
character take the maximal non-sign run; at a sign followed by a non-sign
character take the sign plus the following maximal non-sign run; a sign
followed by another sign or by the end of input matches nothing and is
skipped. -/
def tokenizeFuel : Nat → List Char → List (List Char)
  | 0, _ => []
  | _ + 1, [] => []
  | fuel + 1, c :: cs =>
    if isSign c then
      match cs with
      | [] => []
      | c2 :: cs2 =>
        if isSign c2 then tokenizeFuel fuel (c2 :: cs2)
        else (c :: c2 :: cs2.takeWhile notSign) :: tokenizeFuel fuel (cs2.dropWhile notSign)
    else (c :: cs.takeWhile notSign) :: tokenizeFuel fuel (cs.dropWhile notSign)

/-- Entry point of the scan.  Every step consumes at least one character, so
a fuel equal to the input length never runs out; the fuel only serves to
make the recursion structural. -/
def tokenize (l : List Char) : List (List Char) := tokenizeFuel l.length l

/-! ### dice.py: token parsing (`_parse_token`) -/

/-- Python `str.strip()` whitespace characters (ASCII subset). -/
def isPyWs (c : Char) : Bool :=
  c = ' ' || c = '\t' || c = '\n' || c = '\r' || c.toNat = 11 || c.toNat = 12

/-- Python `str.strip()`: remove leading and trailing whitespace. -/
def pyStrip (l : List Char) : List Char :=
  ((l.dropWhile isPyWs).reverse.dropWhile isPyWs).reverse

/-- ASCII lower-casing of one character (`str.lower()` on the inputs the
parser handles). -/
def lowerChar (c : Char) : Char :=
  if 'A' ≤ c ∧ c ≤ 'Z' then Char.ofNat (c.toNat + 32) else c

/-- Tail of a Python integer-literal digit run after its first digit:
underscores may appear singly and only between digits. -/
def digitsTail : List Char → Bool
  | [] => true
  | '_' :: rest =>
    match rest with
    | [] => false
    | c :: rest2 => c.isDigit && digitsTail rest2
  | c :: rest => c.isDigit && digitsTail rest

/-- A nonempty digit run acceptable to Python `int()` after sign removal:
starts with a digit, underscores only singly between digits. -/
def digitsOk : List Char → Bool
  | [] => false
  | c :: rest => c.isDigit && digitsTail rest

/-- Numeric value of a digit run (underscores skipped). -/
def digitsVal (l : List Char) : Nat :=
  (l.filter (fun c => c ≠ '_')).foldl (fun acc c => 10 * acc + (c.toNat - 48)) 0

/-- Python `int(s)` on a string: strip whitespace, optional sign, then a
digit run (with Python's underscore rule); `ValueError` otherwise. -/
def pyInt (l : List Char) : Except String Int :=
  let s := pyStrip l
  let sign : Int := if s.head? = some '-' then -1 else 1
  let digits : List Char :=
    if s.head? = some '+' || s.head? = some '-' then s.tail else s
  if digitsOk digits then .ok (sign * Int.ofNat (digitsVal digits))
  else .error "invalid literal for int"

/-- `_parse_token` from `dice.py`: strip the token, reject if empty, peel an
optional sign, then either parse an `[N]dM` dice term (count defaults to 1;
the `DiceTerm` invariants reject a negative count or non-positive size) or a
flat integer modifier multiplied by the sign. -/
def _parse_token (tok : List Char) : Except String (DiceTerm ⊕ ModifierTerm) :=
  let token := pyStrip tok
  if token = [] then .error "Empty token in dice expression"
  else
    let sign : Int := if token.head? = some '-' then -1 else 1
    let body : List Char :=
      if token.head? = some '+' || token.head? = some '-' then token.tail else token
    let lowered := body.map lowerChar
    if 'd' ∈ lowered then
      let count_part := lowered.takeWhile (fun c => c ≠ 'd')
      let size_part := (lowered.dropWhile (fun c => c ≠ 'd')).tail
      do
        let count : Int ← if count_part = [] then .ok 1 else pyInt count_part
        let size : Int ← pyInt size_part
        if count < 0 then .error "Dice count must be non-negative"
        else if size ≤ 0 then .error "Die size must be positive"
        else .ok (.inl ⟨count.toNat, size.toNat, sign⟩)
    else
      if body = [] then .error "Invalid modifier in token"
      else do
        let value ← pyInt body
        .ok (.inr ⟨value * sign⟩)

/-- The token loop of `parse_expression`: parse each token left to right,
propagating the first failure. -/
def parseTokens : List (List Char) → Except String (List (DiceTerm ⊕ ModifierTerm))
  | [] => .ok []
  | tk :: tks => do
    let r ← _parse_token tk
    let rs ← parseTokens tks
    .ok (r :: rs)

/-- `parse_expression` from `dice.py`: remove all space characters
(`expr.replace(" ", "")`), reject the empty result, tokenize, parse each
token, and reject when nothing at all was parsed. -/
def parse_expression (expr : String) : Except String DiceExpression :=
  let chars := expr.data.filter (fun c => c ≠ ' ')
  if chars = [] then .error "Dice expression cannot be empty"
  else do
    let results ← parseTokens (tokenize chars)
    let dice := results.filterMap
      (fun r => match r with | .inl d => some d | .inr _ => none)
    let mods := results.filterMap
      (fun r => match r with | .inl _ => none | .inr m => some m)
    if dice = [] ∧ mods = [] then .error "Could not parse expression"
    else .ok ⟨dice, mods⟩

/-! ### dice.py: evaluation -/

/-- The generator `tuple(rng.randint(1, size) for _ in range(count))`:
`count` successive draws in `[1, size]`, in order. -/
def drawDice (size : Nat) : Nat → Rng → List Nat × Rng
  | 0, rng => ([], rng)
  | n + 1, rng =>
    let (v, rng1) := rng.randint 1 size
    let (rest, rng2) := drawDice size n rng1
    (v :: rest, rng2)

/-- The term loop of `roll`: for each `DiceTerm` in order, a zero-count term
records an empty result list and is skipped without touching the random
source; otherwise `count` dice are drawn, the signed subtotal is accumulated,
and the displayed values are negated individually when the sign is not
positive.  Returns the displayed per-term results, the dice contribution to
the total, and the final random-source state. -/
def rollTerms : List DiceTerm → Rng → List (List Int) × Int × Rng
  | [], rng => ([], 0, rng)
  | t :: ts, rng =>
    if t.count = 0 then
      let (res, tot, rng1) := rollTerms ts rng
      ([] :: res, tot, rng1)
    else
      let (rolls, rng1) := drawDice t.size t.count rng
      let subtotal := (rolls.map Int.ofNat).sum * t.sign
      let shown := if t.sign > 0 then rolls.map Int.ofNat
                   else rolls.map (fun r => -Int.ofNat r)
      let (res, tot, rng2) := rollTerms ts rng1
      (shown :: res, subtotal + tot, rng2)

/-- `roll` from `dice.py`: parse, then evaluate the terms against the random
source, starting the total at `modifier_total`.  The final random-source
state is returned alongside the result to make the draw sequence explicit. -/
def roll (expr : String) (rng : Rng) : Except String (DiceRollResult × Rng) := do
  let parsed ← parse_expression expr
  let (res, diceTot, rng1) := rollTerms parsed.dice rng
  .ok (⟨parsed.modifier_total + diceTot, res, parsed.modifiers.map ModifierTerm.value⟩, rng1)

/-! ### Binary64 model for `expected_value`

Python evaluates `expected += term.sign * term.count * (term.size + 1) / 2`
in IEEE-754 double precision: the triple product is exact integer
arithmetic, the division by 2 is CPython's correctly-rounded int/int true
division producing a double (OverflowError if the quotient rounds to
2^1024 or beyond), and `+=` converts the integer accumulator to a double
(correctly rounded, OverflowError past the same bound) before a correctly
rounded double addition (which silently overflows to infinity).  A finite
double is an integer multiple of 2^-1074, so finite values are represented
exactly by that integer; rounding is round-to-nearest, ties to even. -/

/-- The power 2^k, computed by shifting (2^1074-scale values appear
throughout the double model, and shifting keeps their evaluation cheap). -/
def pow2 (k : Nat) : Nat := Nat.shiftLeft 1 k

/-- Floor of log2, made structural with a fuel argument and tail-recursive
with an accumulator; 64-bit chunking keeps the recursion shallow.  Every
step shrinks the argument, so a fuel equal to the argument never runs
out. -/
def log2F : Nat → Nat → Nat → Nat
  | 0, _, acc => acc
  | fuel + 1, n, acc =>
    if 2 ^ 64 ≤ n then log2F fuel (n / 2 ^ 64) (acc + 64)
    else if 2 ≤ n then log2F fuel (n / 2) (acc + 1)
    else acc

/-- Floor of log2 of a positive natural. -/
def natLog2 (n : Nat) : Nat := log2F n n 0

/-- Round a / b to the nearest natural, ties to even (for b > 0). -/
def roundNatHalfEven (a b : Nat) : Nat :=
  let q := a / b
  let r := a % b
  if 2 * r < b then q
  else if b < 2 * r then q + 1
  else if q % 2 = 0 then q else q + 1

/-- An IEEE-754 binary64 value: a finite double holds its exact value
scaled by 2^1074 (every finite double is an integer multiple of 2^-1074);
infinities and nan are separate. -/
inductive PyFloat where
  | finite (u : Int)
  | inf
  | neginf
  | nan
deriving DecidableEq, Repr

/-- Round the real value u * 2^-1074 to binary64 (round to nearest, ties to
even): the grid step for a magnitude with floor-log2 e is 2^(max (e-52)
(-1074)), which in scaled units is 2^(natLog2 |u| - 52) (truncated
subtraction gives the subnormal grid of one scaled unit); magnitudes that
round to 2^1024 (scaled: 2^2098) or beyond become infinities. -/
def roundScaled (u : Int) : PyFloat :=
  if u = 0 then .finite 0
  else
    let a := u.natAbs
    let s := natLog2 a - 52
    let v := roundNatHalfEven a (pow2 s) * pow2 s
    if v < pow2 2098 then
      (if 0 ≤ u then .finite (v : Int) else .finite (-(v : Int)))
    else (if 0 ≤ u then .inf else .neginf)

/-- CPython int-to-double conversion (`float.__radd__` on an int operand):
correctly rounded, raising OverflowError instead of returning an
infinity. -/
def intToDouble (n : Int) : Except String PyFloat :=
  match roundScaled (n * (pow2 1074 : Nat)) with
  | .finite u => .ok (.finite u)
  | _ => .error "int too large to convert to float"

/-- CPython true division of an int by 2 (`k / 2`, the only division
`expected_value` performs): the exact rational k/2 is k * 2^1073 in scaled
units, correctly rounded, raising OverflowError instead of an infinity. -/
def intDiv2Double (k : Int) : Except String PyFloat :=
  match roundScaled (k * (pow2 1073 : Nat)) with
  | .finite u => .ok (.finite u)
  | _ => .error "integer division result too large for a float"

/-- IEEE-754 double addition: correctly rounded on finite operands
(overflowing silently to an infinity), with the usual special-value
rules. -/
def floatAdd : PyFloat → PyFloat → PyFloat
  | .nan, _ => .nan
  | _, .nan => .nan
  | .inf, .neginf => .nan
  | .neginf, .inf => .nan
  | .inf, _ => .inf
  | _, .inf => .inf
  | .neginf, _ => .neginf
  | _, .neginf => .neginf
  | .finite x, .finite y => roundScaled (x + y)

/-- A Python number as `expected_value` manipulates it: the accumulator
starts as an exact int and becomes a double at the first `+=` with a
float (with no dice terms the int is returned unchanged). -/
inductive PyNum where
  | int (n : Int)
  | float (f : PyFloat)
deriving DecidableEq, Repr

/-- The exact rational value denoted by a Python number; infinities and
nan denote no rational. -/
def PyNum.val? : PyNum → Option ℚ
  | .int n => some (n : ℚ)
  | .float (.finite u) => some ((u : ℚ) / (pow2 1074 : Nat))
  | .float _ => none

/-- Python's `expected += ...`: an int accumulator is first converted to a
double (which can raise OverflowError), then the doubles are added. -/
def pyNumAddFloat (acc : PyNum) (f : PyFloat) : Except String PyNum :=
  match acc with
  | .int n => do
    let g ← intToDouble n
    .ok (.float (floatAdd g f))
  | .float g => .ok (.float (floatAdd g f))

/-- The exact integer `term.sign * term.count * (term.size + 1)` computed
before the division in the loop body of `expected_value`. -/
def termInt (t : DiceTerm) : Int := t.sign * t.count * (t.size + 1)

/-- Sum of the per-term integers, for stating the accumulated value. -/
def sumTermInt (ts : List DiceTerm) : Int := (ts.map termInt).sum

/-- The `for term in parsed.dice` loop of `expected_value`: divide the
term's integer by 2 in double precision and add it to the accumulator. -/
def evAddTerms : List DiceTerm → PyNum → Except String PyNum
  | [], acc => .ok acc
  | t :: ts, acc => do
    let f ← intDiv2Double (termInt t)
    let acc2 ← pyNumAddFloat acc f
    evAddTerms ts acc2

/-- `expected_value` from `dice.py`: start from the exact integer
`modifier_total` and add `sign * count * (size + 1) / 2` per dice term in
Python float arithmetic.  The function takes no random source. -/
def expected_value (expr : String) : Except String PyNum := do
  let parsed ← parse_expression expr
  evAddTerms parsed.dice (.int parsed.modifier_total)

/-- Modelled from the specification's words ("add sign * count * (size+1)/2
... add modifier_total"): the exact rational value of the formula with no
rounding, for comparison with the float-computed result. -/
def expectedValueExactSpec (parsed : DiceExpression) : ℚ :=
  (parsed.dice.map (fun t => (t.sign : ℚ) * t.count * (t.size + 1) / 2)).sum
    + (parsed.modifier_total : ℚ)

/-- `roll_d20` from `dice.py`. -/
def roll_d20 (rng : Rng) : Nat × Rng := rng.randint 1 20

/-- `roll_with_advantage` from `dice.py`: two draws in a fixed order, keep
the maximum, return both raw values in draw order. -/
def roll_with_advantage (rng : Rng) : (Nat × (Nat × Nat)) × Rng :=
  let (first, rng1) := rng.randint 1 20
  let (second, rng2) := rng1.randint 1 20
  ((max first second, (first, second)), rng2)

/-- `roll_with_disadvantage` from `dice.py`: same two draws, keep the
minimum. -/
def roll_with_disadvantage (rng : Rng) : (Nat × (Nat × Nat)) × Rng :=
  let (first, rng1) := rng.randint 1 20
  let (second, rng2) := rng1.randint 1 20
  ((min first second, (first, second)), rng2)

/-! ### abilities.py -/

/-- ASCII `str.lower()` on a whole string. -/
def strLower (s : String) : String := ⟨s.data.map lowerChar⟩

/-- `ABILITY_NAMES` from `abilities.py`. -/
def ABILITY_NAMES : List String :=
  ["strength", "dexterity", "constitution", "intelligence", "wisdom", "charisma"]

/-- `validate_score` from `abilities.py`: scores must lie in `[1, 30]`. -/
def validate_score (score : Int) : Except String Int :=
  if 1 ≤ score ∧ score ≤ 30 then .ok score
  else .error "Ability scores must be between 1 and 30"

/-- The module-level `modifier` function from `abilities.py`:
`(validate_score(score) - 10) // 2` with Python floor division. -/
def modifier (score : Int) : Except String Int := do
  let v ← validate_score score
  .ok ((v - 10).fdiv 2)

/-- `AbilityScores` dataclass from `abilities.py`. -/
structure AbilityScores where
  strength : Int
  dexterity : Int
  constitution : Int
  intelligence : Int
  wisdom : Int
  charisma : Int
deriving DecidableEq, Repr

/-- `getattr(self, key)` for the six ability fields; `none` when the key is
not an ability name (the membership test against `ABILITY_NAMES`). -/
def AbilityScores.score (a : AbilityScores) (key : String) : Option Int :=
  if key = "strength" then some a.strength
  else if key = "dexterity" then some a.dexterity
  else if key = "constitution" then some a.constitution
  else if key = "intelligence" then some a.intelligence
  else if key = "wisdom" then some a.wisdom
  else if key = "charisma" then some a.charisma
  else none

/-- `AbilityScores.modifier` from `abilities.py`: case-insensitive lookup,
`KeyError` on an unknown ability, then the modifier formula. -/
def AbilityScores.modifier (a : AbilityScores) (ability : String) : Except String Int :=
  match a.score (strLower ability) with
  | none => .error "Unknown ability"
  | some s => Dnd.modifier s

/-! ### character.py -/

/-- `SKILL_ABILITIES` from `character.py`: the skill-to-ability mapping. -/
def SKILL_ABILITIES (key : String) : Option String :=
  if key = "acrobatics" then some "dexterity"
  else if key = "animal handling" then some "wisdom"
  else if key = "arcana" then some "intelligence"
  else if key = "athletics" then some "strength"
  else if key = "deception" then some "charisma"
  else if key = "history" then some "intelligence"
  else if key = "insight" then some "wisdom"
  else if key = "intimidation" then some "charisma"
  else if key = "investigation" then some "intelligence"
  else if key = "medicine" then some "wisdom"
  else if key = "nature" then some "intelligence"
  else if key = "perception" then some "wisdom"
  else if key = "performance" then some "charisma"
  else if key = "persuasion" then some "charisma"
  else if key = "religion" then some "intelligence"
  else if key = "sleight of hand" then some "dexterity"
  else if key = "stealth" then some "dexterity"
  else if key = "survival" then some "wisdom"
  else none

/-- `proficiency_bonus` from `character.py`: `2 + (level - 1) // 4` for
levels in `[1, 20]`, `ValueError` otherwise. -/
def proficiency_bonus (level : Int) : Except String Int :=
  if level < 1 ∨ level > 20 then .error "Character level must be between 1 and 20"
  else .ok (2 + (level - 1).fdiv 4)

/-- `Character` dataclass from `character.py`.  The skill/save sets are
modelled as lists of (lower-cased) names; only membership matters. -/
structure Character where
  name : String
  level : Int
  abilities : AbilityScores
  proficient_skills : List String
  expertise_skills : List String
  proficient_saves : List String

/-- `Character.skill_modifier` from `character.py`: look the lower-cased
skill up in `SKILL_ABILITIES` (`KeyError` when absent), take the governing
ability's modifier, then add twice the proficiency bonus for expertise, or
once for mere proficiency, or nothing. -/
def Character.skill_modifier (c : Character) (skill : String) : Except String Int :=
  let key := strLower skill
  match SKILL_ABILITIES key with
  | none => .error "Unknown skill"
  | some ability => do
    let mod ← c.abilities.modifier ability
    if key ∈ c.expertise_skills then do
      let pb ← proficiency_bonus c.level
      .ok (mod + 2 * pb)
    else if key ∈ c.proficient_skills then do
      let pb ← proficiency_bonus c.level
      .ok (mod + pb)
    else .ok mod

/-! ### rules.py -/

/-- `CheckResult` dataclass from `rules.py`. -/
structure CheckResult where
  total : Int
  modifier : Int
  dc : Int
  success : Bool
  natural : Nat
  roll_details : List Nat
deriving DecidableEq, Repr

/-- `ContestResult` dataclass from `rules.py`. -/
structure ContestResult where
  total_a : Int
  total_b : Int
  winner : Option String
  check_a : CheckResult
  check_b : CheckResult
deriving DecidableEq, Repr

/-- The advantage-state strings `_roll_d20` accepts (after lower-casing). -/
def validState (s : String) : Prop :=
  strLower s = "normal" ∨ strLower s = "advantage" ∨ strLower s = "disadvantage"

instance (s : String) : Decidable (validState s) := by
  unfold validState; infer_instance

/-- `_roll_d20` from `rules.py`: dispatch on the lower-cased advantage state
to the appropriate roller; `ValueError` on any other string, raised before
any draw. -/
def _roll_d20 (state : String) (rng : Rng) : Except String ((Nat × List Nat) × Rng) :=
  let st := strLower state
  if st = "normal" then
    let (value, rng1) := roll_d20 rng
    .ok ((value, [value]), rng1)
  else if st = "advantage" then
    let ((value, detail), rng1) := roll_with_advantage rng
    .ok ((value, [detail.1, detail.2]), rng1)
  else if st = "disadvantage" then
    let ((value, detail), rng1) := roll_with_disadvantage rng
    .ok ((value, [detail.1, detail.2]), rng1)
  else .error "Advantage state must be normal, advantage or disadvantage"

/-- `resolve_check` from `rules.py`: roll the d20 according to the advantage
state, add the modifier, compare against the DC inclusively. -/
def resolve_check (m dc : Int) (advantage : String) (rng : Rng) :
    Except String (CheckResult × Rng) := do
  let ((natural, detail), rng1) ← _roll_d20 advantage rng
  let total := (natural : Int) + m
  .ok (⟨total, m, dc, decide (total ≥ dc), natural, detail⟩, rng1)

/-- `resolve_contest` from `rules.py`: two checks against `dc = 0` sharing
one random source, A's check drawn fully before B's, winner by strict
comparison of the totals with `none` on a tie. -/
def resolve_contest (modifier_a modifier_b : Int) (advantage_a advantage_b : String)
    (rng : Rng) : Except String (ContestResult × Rng) := do
  let (check_a, rng1) ← resolve_check modifier_a 0 advantage_a rng
  let (check_b, rng2) ← resolve_check modifier_b 0 advantage_b rng1
  let total_a := check_a.total
  let total_b := check_b.total
  let winner : Option String :=
    if total_a > total_b then some "a"
    else if total_b > total_a then some "b"
    else none
  .ok (⟨total_a, total_b, winner, check_a, check_b⟩, rng2)

/-! ### Derived definitions used by the statements -/

/-- The raw (unsigned) per-term draw sequences of an evaluation: for each
term in order, `count` draws in `[1, size]`, threading the random source. -/
def rawDraws : List DiceTerm → Rng → List (List Nat) × Rng
  | [], rng => ([], rng)
  | t :: ts, rng =>
    let (rolls, rng1) := drawDice t.size t.count rng
    let (rest, rng2) := rawDraws ts rng1
    (rolls :: rest, rng2)

/-- Displayed values of one term: the raw values, negated individually when
the term's sign is not positive. -/
def shownOf (t : DiceTerm) (r : List Nat) : List Int :=
  if t.sign > 0 then r.map Int.ofNat else r.map (fun v => -Int.ofNat v)

/-- Signed subtotal of one term: `sign * sum(rawRolls)`. -/
def subtotalOf (t : DiceTerm) (r : List Nat) : Int :=
  (r.map Int.ofNat).sum * t.sign

/-- Removal of every whitespace character.  This follows the specification's
words ("whitespace ignored everywhere"), for comparison with the source's
space-only removal. -/
def removeAllWhitespace (s : String) : String :=
  ⟨s.data.filter (fun c => !isPyWs c)⟩

/-- A concrete deterministic random source used to instantiate theorems. -/
def cRngId : Rng := ⟨fun n => n, 0⟩

/-- The sample character from the specification: level 5, dexterity 16,
proficient in stealth and acrobatics, expert in stealth. -/
def nyx : Character :=
  ⟨"Nyx", 5, ⟨15, 16, 14, 12, 10, 8⟩, ["stealth", "acrobatics"], ["stealth"], ["dexterity"]⟩

/-! ### Helper lemmas -/

theorem filter_idem (p : Char → Bool) (l : List Char) :
    (l.filter p).filter p = l.filter p := by
  induction l with
  | nil => rfl
  | cons c cs ih =>
    by_cases h : p c <;> simp [List.filter_cons, h, ih]

/-- The term loop is the raw draws, displayed and summed per term. -/
theorem rollTerms_eq (ts : List DiceTerm) (rng : Rng) :
    rollTerms ts rng =
      ((ts.zipWith shownOf (rawDraws ts rng).1),
       (ts.zipWith subtotalOf (rawDraws ts rng).1).sum,
       (rawDraws ts rng).2) := by
  induction ts generalizing rng with
  | nil => rfl
  | cons t ts ih =>
    by_cases h : t.count = 0
    · simp only [rollTerms, rawDraws, h, if_pos, drawDice]
      rw [ih]
      simp [shownOf, subtotalOf]
    · simp only [rollTerms, rawDraws, if_neg h]
      rw [ih]
      simp only [List.zipWith_cons_cons, List.sum_cons, shownOf, subtotalOf]

/-- Each draw of `drawDice` lies in `[1, size]` when the size is positive. -/
theorem drawDice_bounds (size n : Nat) (rng : Rng) (hs : 0 < size) :
    ∀ v ∈ (drawDice size n rng).1, 1 ≤ v ∧ v ≤ size := by
  induction n generalizing rng with
  | zero => simp [drawDice]
  | succ n ih =>
    simp only [drawDice, Rng.randint, List.mem_cons]
    rintro v (rfl | hv)
    · constructor
      · omega
      · have : rng.stream rng.pos % (size + 1 - 1) < size := by
          have := Nat.mod_lt (rng.stream rng.pos) hs
          simpa using this
        omega
    · exact ih _ v hv

/-- Raw draw values are in range for terms with positive size. -/
theorem rawDraws_bounds (ts : List DiceTerm) (rng : Rng)
    (hs : ∀ t ∈ ts, 0 < t.size) :
    ∀ p ∈ ts.zip (rawDraws ts rng).1, ∀ v ∈ p.2, 1 ≤ v ∧ v ≤ p.1.size := by
  induction ts generalizing rng with
  | nil => simp [rawDraws]
  | cons t ts ih =>
    simp only [rawDraws, List.zip_cons_cons, List.mem_cons]
    rintro p (rfl | hp)
    · exact drawDice_bounds t.size t.count rng (hs t (List.mem_cons_self t ts))
    · exact ih _ (fun u hu => hs u (List.mem_cons_of_mem t hu)) p hp

theorem isOk_ok {α : Type} (a : α) : (Except.ok a : Except String α).isOk = true := rfl

theorem isOk_error {α : Type} (e : String) :
    (Except.error e : Except String α).isOk = false := rfl

theorem ok_bind {α β : Type} (a : α) (f : α → Except String β) :
    (Except.ok a >>= f) = f a := rfl

theorem error_bind {α β : Type} (e : String) (f : α → Except String β) :
    ((Except.error e : Except String α) >>= f) = .error e := rfl

theorem pow2_eq (k : Nat) : pow2 k = 2 ^ k := by
  simp [pow2, Nat.shiftLeft_eq]

theorem pow2_succ (k : Nat) : pow2 (k + 1) = 2 * pow2 k := by
  simp [pow2_eq, pow_succ, Nat.mul_comm]

theorem pow2_pos (k : Nat) : 0 < pow2 k := by
  rw [pow2_eq]; positivity

/-- One division step of the log2 scan preserves the floor-log2 bounds. -/
theorem log2F_step {n P L acc k : Nat} (hP : P = 2 ^ k) (_hbig : P ≤ n)
    (hA : acc + k ≤ L)
    (hB : 2 ^ (L - (acc + k)) ≤ n / P)
    (hC : n / P < 2 ^ (L - (acc + k) + 1)) :
    acc ≤ L ∧ 2 ^ (L - acc) ≤ n ∧ n < 2 ^ (L - acc + 1) := by
  have hPpos : 0 < P := by rw [hP]; positivity
  have he : L - acc = (L - (acc + k)) + k := by omega
  refine ⟨by omega, ?_, ?_⟩
  · rw [he, pow_add, ← hP]
    calc 2 ^ (L - (acc + k)) * P ≤ (n / P) * P := Nat.mul_le_mul_right P hB
      _ ≤ n := Nat.div_mul_le_self n P
  · have hmod : n % P < P := Nat.mod_lt n hPpos
    have hdm : P * (n / P) + n % P = n := Nat.div_add_mod n P
    calc n = P * (n / P) + n % P := hdm.symm
      _ < P * (n / P) + P := Nat.add_lt_add_left hmod _
      _ = P * (n / P + 1) := (Nat.mul_succ P (n / P)).symm
      _ ≤ P * 2 ^ (L - (acc + k) + 1) := Nat.mul_le_mul_left P hC
      _ = 2 ^ (L - acc + 1) := by rw [hP, ← pow_add]; congr 1; omega

/-- The fuelled log2 scan computes floor-log2 bounds relative to its
accumulator. -/
theorem log2F_spec (fuel : Nat) : ∀ n acc, 1 ≤ n → n ≤ fuel →
    acc ≤ log2F fuel n acc ∧
    2 ^ (log2F fuel n acc - acc) ≤ n ∧
    n < 2 ^ (log2F fuel n acc - acc + 1) := by
  induction fuel with
  | zero => intro n acc h1 h2; omega
  | succ fuel ih =>
    intro n acc h1 h2
    by_cases hbig : 2 ^ 64 ≤ n
    · have hn2 : 1 ≤ n / 2 ^ 64 := (Nat.one_le_div_iff (by positivity)).mpr hbig
      have hlt : n / 2 ^ 64 < n := Nat.div_lt_self (by omega) (by norm_num)
      obtain ⟨hA, hB, hC⟩ := ih (n / 2 ^ 64) (acc + 64) hn2 (by omega)
      have hres : log2F (fuel + 1) n acc = log2F fuel (n / 2 ^ 64) (acc + 64) := by
        simp only [log2F, if_pos hbig]
      rw [hres]
      exact log2F_step rfl hbig hA hB hC
    · by_cases h2n : 2 ≤ n
      · have hn2 : 1 ≤ n / 2 := (Nat.one_le_div_iff (by norm_num)).mpr h2n
        have hlt : n / 2 < n := Nat.div_lt_self (by omega) (by norm_num)
        obtain ⟨hA, hB, hC⟩ := ih (n / 2) (acc + 1) hn2 (by omega)
        have hres : log2F (fuel + 1) n acc = log2F fuel (n / 2) (acc + 1) := by
          simp only [log2F, if_neg hbig, if_pos h2n]
        rw [hres]
        exact log2F_step (by norm_num) h2n hA hB hC
      · have hn1 : n = 1 := by omega
        have hres : log2F (fuel + 1) n acc = acc := by
          simp only [log2F, if_neg hbig, if_neg h2n]
        rw [hres, hn1]
        refine ⟨le_refl acc, ?_, ?_⟩ <;> simp

/-- Floor-log2 characterisation of `natLog2` on positive naturals. -/
theorem natLog2_spec (a : Nat) (ha : 1 ≤ a) :
    2 ^ natLog2 a ≤ a ∧ a < 2 ^ (natLog2 a + 1) := by
  obtain ⟨_, hB, hC⟩ := log2F_spec a a 0 ha (le_refl a)
  constructor
  · simpa [natLog2] using hB
  · simpa [natLog2] using hC

/-- Half-even rounding is exact on multiples of the grid. -/
theorem roundNatHalfEven_of_dvd (a b : Nat) (hb : 0 < b) (h : b ∣ a) :
    roundNatHalfEven a b = a / b := by
  simp only [roundNatHalfEven]
  obtain ⟨c, rfl⟩ := h
  have hr : b * c % b = 0 := Nat.mul_mod_right b c
  rw [hr]
  simp [hb]

/-- Rounding to binary64 is the identity on multiples of 2^-1 (scaled:
2^1073) whose magnitude is at most 2^52 (scaled: 2^1126): such values are
exactly representable. -/
theorem roundScaled_eq_self (u : Int) (hdvd : ((pow2 1073 : Nat) : Int) ∣ u)
    (hb : u.natAbs ≤ pow2 1126) : roundScaled u = .finite u := by
  by_cases hu : u = 0
  · subst hu; rfl
  · simp only [roundScaled, if_neg hu]
    set a := u.natAbs with ha
    have ha1 : 1 ≤ a := by
      have := Int.natAbs_pos.mpr hu
      omega
    have hdvdN : 2 ^ 1073 ∣ a := by
      have hN := Int.natAbs_dvd_natAbs.mpr hdvd
      rw [Int.natAbs_ofNat, pow2_eq] at hN
      exact hN
    have hbN : a ≤ 2 ^ 1126 := by rw [← pow2_eq]; exact hb
    obtain ⟨hlow, hhigh⟩ := natLog2_spec a ha1
    have hlog : natLog2 a ≤ 1126 := by
      by_contra hcon
      push_neg at hcon
      have h1 : (2 : Nat) ^ 1127 ≤ 2 ^ natLog2 a :=
        Nat.pow_le_pow_right (by norm_num) (by omega)
      have h2 : (2 : Nat) ^ 1126 < 2 ^ 1127 :=
        Nat.pow_lt_pow_right (by norm_num) (by omega)
      have hcontra : (2 : Nat) ^ 1127 ≤ 2 ^ 1126 :=
        le_trans h1 (le_trans hlow hbN)
      exact absurd hcontra (not_le.mpr h2)
    have hsdvd : 2 ^ (natLog2 a - 52) ∣ a := by
      by_cases hcase : natLog2 a ≤ 1125
      · exact dvd_trans (pow_dvd_pow 2 (by omega)) hdvdN
      · have h1126 : natLog2 a = 1126 := by omega
        have hge : (2 : Nat) ^ 1126 ≤ a := by rw [← h1126]; exact hlow
        have haeq : a = 2 ^ 1126 := le_antisymm hbN hge
        have h1074 : natLog2 a - 52 = 1074 := by omega
        rw [h1074, haeq]
        exact pow_dvd_pow 2 (by omega)
    rw [pow2_eq (natLog2 a - 52)]
    rw [roundNatHalfEven_of_dvd a (2 ^ (natLog2 a - 52)) (by positivity) hsdvd]
    rw [Nat.div_mul_cancel hsdvd]
    have hlt : a < pow2 2098 := by
      rw [pow2_eq]
      exact lt_of_le_of_lt hbN (Nat.pow_lt_pow_right (by norm_num) (by omega))
    rw [if_pos hlt]
    by_cases hpos : 0 ≤ u
    · rw [if_pos hpos]
      congr 1
      omega
    · rw [if_neg hpos]
      congr 1
      omega

/-- Scaling a 53-bit integer by 2^1073 stays within the exact range. -/
theorem scaled_bound (x : Int) (hx : x.natAbs ≤ 2 ^ 53) :
    (x * ((pow2 1073 : Nat) : Int)).natAbs ≤ pow2 1126 := by
  rw [Int.natAbs_mul, Int.natAbs_ofNat, pow2_eq, pow2_eq]
  calc x.natAbs * 2 ^ 1073 ≤ 2 ^ 53 * 2 ^ 1073 := Nat.mul_le_mul_right _ hx
    _ = 2 ^ 1126 := by rw [← pow_add]

/-- Division of a 53-bit integer by 2 in double precision is exact. -/
theorem intDiv2Double_exact (k : Int) (hk : k.natAbs ≤ 2 ^ 53) :
    intDiv2Double k = .ok (.finite (k * ((pow2 1073 : Nat) : Int))) := by
  simp only [intDiv2Double]
  rw [roundScaled_eq_self _ (dvd_mul_left _ _) (scaled_bound k hk)]

/-- Conversion of an integer whose double is at most 2^52 in magnitude is
exact (stated via the doubled integer to stay in one scale). -/
theorem intToDouble_exact (n : Int) (hn : (2 * n).natAbs ≤ 2 ^ 53) :
    intToDouble n = .ok (.finite (n * ((pow2 1074 : Nat) : Int))) := by
  simp only [intToDouble]
  have hcast : ((pow2 1074 : Nat) : Int) = 2 * ((pow2 1073 : Nat) : Int) := by
    rw [show (1074 : Nat) = 1073 + 1 from rfl, pow2_succ]
    push_cast
    ring
  have heq : n * ((pow2 1074 : Nat) : Int) = (2 * n) * ((pow2 1073 : Nat) : Int) := by
    rw [hcast]; ring
  rw [heq]
  rw [roundScaled_eq_self _ (dvd_mul_left _ _) (scaled_bound _ hn)]

/-- Casting the per-term integer sum to the rationals gives the sum of the
per-term formulas without the halving. -/
theorem sumTermInt_cast (l : List DiceTerm) :
    ((sumTermInt l : Int) : ℚ)
      = (l.map (fun t => (t.sign : ℚ) * t.count * (t.size + 1))).sum := by
  induction l with
  | nil => simp [sumTermInt]
  | cons t ts ih =>
    simp only [sumTermInt, List.map_cons, List.sum_cons] at ih ⊢
    rw [Int.cast_add, ih]
    rw [show ((termInt t : Int) : ℚ) = (t.sign : ℚ) * t.count * (t.size + 1) by
      simp only [termInt]; push_cast; ring]

/-- Halving each summand halves the sum. -/
theorem spec_sum_halved (l : List DiceTerm) :
    (l.map (fun t => (t.sign : ℚ) * t.count * (t.size + 1) / 2)).sum
      = (l.map (fun t => (t.sign : ℚ) * t.count * (t.size + 1))).sum / 2 := by
  induction l with
  | nil => simp
  | cons t ts ih => simp [ih]; ring

/-- The term loop of `expected_value` is exact while every doubled partial
sum and every doubled term value fits in 53 bits. -/
theorem evAddTerms_exact (ts : List DiceTerm) : ∀ S2 : Int,
    (∀ t ∈ ts, (termInt t).natAbs ≤ 2 ^ 53) →
    (∀ i, (S2 + sumTermInt (ts.take i)).natAbs ≤ 2 ^ 53) →
    evAddTerms ts (.float (.finite (S2 * ((pow2 1073 : Nat) : Int))))
      = .ok (.float (.finite ((S2 + sumTermInt ts) * ((pow2 1073 : Nat) : Int)))) := by
  induction ts with
  | nil =>
    intro S2 _ _
    simp [evAddTerms, sumTermInt]
  | cons t ts ih =>
    intro S2 hterms hsums
    have hk : (termInt t).natAbs ≤ 2 ^ 53 := hterms t (List.mem_cons_self t ts)
    have hS1 : (S2 + termInt t).natAbs ≤ 2 ^ 53 := by
      have h1 := hsums 1
      simpa [sumTermInt] using h1
    simp only [evAddTerms]
    rw [intDiv2Double_exact (termInt t) hk]
    simp only [ok_bind, pyNumAddFloat, floatAdd]
    rw [show S2 * ((pow2 1073 : Nat) : Int) + termInt t * ((pow2 1073 : Nat) : Int)
          = (S2 + termInt t) * ((pow2 1073 : Nat) : Int) from (add_mul S2 (termInt t) _).symm]
    rw [roundScaled_eq_self _ (dvd_mul_left _ _) (scaled_bound _ hS1)]
    rw [ih (S2 + termInt t) (fun u hu => hterms u (List.mem_cons_of_mem t hu))
      (fun i => by
        have h2 := hsums (i + 1)
        simpa [sumTermInt, add_assoc] using h2)]
    rw [show S2 + termInt t + sumTermInt ts = S2 + sumTermInt (t :: ts) by
      simp [sumTermInt]; ring]

/-- Inversion for a successful `Except` bind. -/
theorem except_bind_ok {α β : Type} {x : Except String α} {f : α → Except String β} {b : β}
    (h : x >>= f = .ok b) : ∃ a, x = .ok a ∧ f a = .ok b := by
  cases x with
  | error e => exact absurd h (by simp [Bind.bind, Except.bind])
  | ok a => exact ⟨a, rfl, by simpa [Bind.bind, Except.bind] using h⟩

/-- A dice term produced by `_parse_token` has positive size and a unit
sign. -/
theorem _parse_token_inl (tk : List Char) (d : DiceTerm)
    (h : _parse_token tk = .ok (.inl d)) :
    0 < d.size ∧ (d.sign = 1 ∨ d.sign = -1) := by
  simp only [_parse_token] at h
  repeat' split at h
  all_goals
    first
    | exact Except.noConfusion h
    | (obtain ⟨c, hc, h⟩ := except_bind_ok h
       first
       | (injection h with h2; exact Sum.noConfusion h2)
       | (obtain ⟨s, hs, h⟩ := except_bind_ok h
          repeat' split at h
          all_goals first
          | exact Except.noConfusion h
          | (injection h with h2
             injection h2 with h3
             have hsz := congrArg DiceTerm.size h3
             have hsg := congrArg DiceTerm.sign h3
             dsimp only at hsz hsg
             refine ⟨by omega, ?_⟩
             rw [← hsg]
             simp)))

/-- Every dice term in a successful token-parse run has positive size and a
unit sign. -/
theorem parseTokens_ok_mem (tks : List (List Char)) (rs : List (DiceTerm ⊕ ModifierTerm))
    (h : parseTokens tks = .ok rs) :
    ∀ d : DiceTerm, .inl d ∈ rs → 0 < d.size ∧ (d.sign = 1 ∨ d.sign = -1) := by
  induction tks generalizing rs with
  | nil =>
    simp only [parseTokens, Except.ok.injEq] at h
    subst h; simp
  | cons tk tks ih =>
    simp only [parseTokens] at h
    obtain ⟨r, hr, h⟩ := except_bind_ok h
    obtain ⟨rs2, hrs2, h⟩ := except_bind_ok h
    simp only [Except.ok.injEq] at h
    subst h
    intro d hd
    rcases List.mem_cons.mp hd with h3 | h3
    · exact _parse_token_inl tk d (h3 ▸ hr)
    · exact ih rs2 hrs2 d h3

/-- A successful token-parse run yields one result per token. -/
theorem parseTokens_ok_length (tks : List (List Char)) (rs : List (DiceTerm ⊕ ModifierTerm))
    (h : parseTokens tks = .ok rs) : rs.length = tks.length := by
  induction tks generalizing rs with
  | nil =>
    simp only [parseTokens, Except.ok.injEq] at h
    subst h; rfl
  | cons tk tks ih =>
    simp only [parseTokens] at h
    obtain ⟨r, hr, h⟩ := except_bind_ok h
    obtain ⟨rs2, hrs2, h⟩ := except_bind_ok h
    simp only [Except.ok.injEq] at h
    subst h
    simp [ih rs2 hrs2]

/-- The token loop fails exactly when some token fails to parse. -/
theorem parseTokens_isOk_false_iff (tks : List (List Char)) :
    (parseTokens tks).isOk = false ↔ ∃ tk ∈ tks, (_parse_token tk).isOk = false := by
  induction tks with
  | nil => simp [parseTokens, isOk_ok]
  | cons tk tks ih =>
    simp only [parseTokens]
    cases h1 : _parse_token tk with
    | error e =>
      simp only [h1, error_bind, isOk_error, List.mem_cons]
      constructor
      · intro _
        exact ⟨tk, Or.inl rfl, by rw [h1]; rfl⟩
      · intro _; trivial
    | ok r =>
      cases h2 : parseTokens tks with
      | error e =>
        simp only [h1, ok_bind, h2, error_bind, isOk_error, List.mem_cons]
        constructor
        · intro _
          obtain ⟨tk2, htk2, hbad⟩ := ih.mp (by rw [h2]; rfl)
          exact ⟨tk2, Or.inr htk2, hbad⟩
        · intro _; trivial
      | ok rs =>
        simp only [h1, ok_bind, h2, isOk_ok, List.mem_cons]
        constructor
        · intro hfalse
          exact absurd hfalse (by simp)
        · rintro ⟨tk2, htk2, hbad⟩
          rcases htk2 with h3 | h3
          · rw [h3, h1] at hbad
            exact absurd hbad (by simp [isOk_ok])
          · have hthis := ih.mpr ⟨tk2, h3, hbad⟩
            rw [h2] at hthis
            exact absurd hthis (by simp [isOk_ok])

/-- The dice terms of a successfully parsed expression have positive size
and a unit sign. -/
theorem parse_ok_dice_inv (expr : String) (parsed : DiceExpression)
    (h : parse_expression expr = .ok parsed) :
    ∀ t ∈ parsed.dice, 0 < t.size ∧ (t.sign = 1 ∨ t.sign = -1) := by
  simp only [parse_expression] at h
  split at h
  · exact absurd h (by simp)
  · obtain ⟨rs, hrs, h⟩ := except_bind_ok h
    split at h
    · exact absurd h (by simp)
    · simp only [Except.ok.injEq] at h
      subst h
      intro t ht
      simp only [List.mem_filterMap] at ht
      obtain ⟨r, hr, hconv⟩ := ht
      match r, hconv with
      | .inl u, hconv =>
        simp only [Option.some.injEq] at hconv
        subst hconv
        exact parseTokens_ok_mem _ _ hrs u hr

theorem _roll_d20_normal (s : String) (rng : Rng) (hs : strLower s = "normal") :
    _roll_d20 s rng = .ok (((roll_d20 rng).1, [(roll_d20 rng).1]), (roll_d20 rng).2) := by
  simp only [_roll_d20, hs]
  rfl

theorem _roll_d20_advantage (s : String) (rng : Rng) (hs : strLower s = "advantage") :
    _roll_d20 s rng =
      .ok ((max (rng.randint 1 20).1 ((rng.randint 1 20).2.randint 1 20).1,
            [(rng.randint 1 20).1, ((rng.randint 1 20).2.randint 1 20).1]),
           ((rng.randint 1 20).2.randint 1 20).2) := by
  simp only [_roll_d20, hs]
  rfl

theorem _roll_d20_disadvantage (s : String) (rng : Rng) (hs : strLower s = "disadvantage") :
    _roll_d20 s rng =
      .ok ((min (rng.randint 1 20).1 ((rng.randint 1 20).2.randint 1 20).1,
            [(rng.randint 1 20).1, ((rng.randint 1 20).2.randint 1 20).1]),
           ((rng.randint 1 20).2.randint 1 20).2) := by
  simp only [_roll_d20, hs]
  rfl

/-- Whenever the d20 dispatch succeeds, resolve_check packages its kept
value and details into the check result. -/
theorem resolve_check_eq (m dc : Int) (s : String) (rng : Rng) (n : Nat)
    (detail : List Nat) (rng1 : Rng) (h : _roll_d20 s rng = .ok ((n, detail), rng1)) :
    resolve_check m dc s rng =
      .ok (⟨(n : Int) + m, m, dc, decide ((n : Int) + m ≥ dc), n, detail⟩, rng1) := by
  simp only [resolve_check, h, ok_bind]

/-- A valid advantage state always yields a successful check with the given
modifier and dc copied into the result. -/
theorem resolve_check_ok_of_valid (m dc : Int) (s : String) (rng : Rng)
    (h : validState s) :
    ∃ res rng1, resolve_check m dc s rng = .ok (res, rng1) ∧
      res.dc = dc ∧ res.modifier = m := by
  rcases h with hs | hs | hs
  · exact ⟨_, _, resolve_check_eq m dc s rng _ _ _ (_roll_d20_normal s rng hs), rfl, rfl⟩
  · exact ⟨_, _, resolve_check_eq m dc s rng _ _ _ (_roll_d20_advantage s rng hs), rfl, rfl⟩
  · exact ⟨_, _, resolve_check_eq m dc s rng _ _ _ (_roll_d20_disadvantage s rng hs), rfl, rfl⟩

/-! ### Claim theorems -/

/-- C4: roll_with_advantage always draws exactly two d20 values in a fixed
order, keeps the maximum, and returns both raw values as a pair in draw
order; roll_with_disadvantage performs the same two draws in the same order
and keeps the minimum, so the same random-source state yields the same raw
pair under either policy (both results below name the same two draws). -/
theorem C4_advantage_two_draws (rng : Rng) :
    roll_with_advantage rng =
      ((max (rng.randint 1 20).1 ((rng.randint 1 20).2.randint 1 20).1,
        ((rng.randint 1 20).1, ((rng.randint 1 20).2.randint 1 20).1)),
       ((rng.randint 1 20).2.randint 1 20).2) ∧
    roll_with_disadvantage rng =
      ((min (rng.randint 1 20).1 ((rng.randint 1 20).2.randint 1 20).1,
        ((rng.randint 1 20).1, ((rng.randint 1 20).2.randint 1 20).1)),
       ((rng.randint 1 20).2.randint 1 20).2) :=
  ⟨rfl, rfl⟩

/-- C8: a dice term with count = 0 contributes an empty per-die result list
and nothing to the total, and the random source reaches the remaining terms
unchanged (no draw is made for the term). -/
theorem C8_zero_count_term (t : DiceTerm) (ts : List DiceTerm) (rng : Rng)
    (h : t.count = 0) :
    rollTerms (t :: ts) rng =
      (([] : List Int) :: (rollTerms ts rng).1,
       (rollTerms ts rng).2.1,
       (rollTerms ts rng).2.2) := by
  simp only [rollTerms, h, if_pos]

/-- Witness for C8 at the term 0d6 and a concrete random source. -/
theorem C8_zero_count_term_witness :
    rollTerms [⟨0, 6, 1⟩] cRngId = ([[]], 0, cRngId) :=
  C8_zero_count_term ⟨0, 6, 1⟩ [] cRngId rfl

/-- C6 counterexample: whitespace is not ignored everywhere.  The tab in
"1\t2d6" is kept by the parser (only spaces are removed) and makes the count
digits invalid, while the same input with all whitespace removed parses as
12d6; so the two parses differ, contradicting the claim. -/
theorem C6_counterexample :
    (parse_expression "1\t2d6").isOk = false ∧
    removeAllWhitespace "1\t2d6" = "12d6" ∧
    (parse_expression (removeAllWhitespace "1\t2d6")).isOk = true ∧
    ¬ parse_expression "1\t2d6" = parse_expression (removeAllWhitespace "1\t2d6") := by
  have h1 : (parse_expression "1\t2d6").isOk = false := by decide
  have h2 : (parse_expression (removeAllWhitespace "1\t2d6")).isOk = true := by decide
  refine ⟨h1, by decide, h2, ?_⟩
  intro h
  rw [h, h2] at h1
  exact absurd h1 (by decide)

/-- C6 amended: parsing ignores the ASCII space character everywhere; for
every input, parsing the expression equals parsing the expression with all
space characters removed.  Other whitespace (tabs, newlines) is not removed
and can change the result. -/
theorem C6_amended_space_invariance (expr : String) :
    parse_expression expr = parse_expression ⟨expr.data.filter (fun c => c ≠ ' ')⟩ := by
  simp only [parse_expression]
  rw [filter_idem]

set_option maxRecDepth 100000 in
/-- C7 counterexample: expected_value does not equal the exact formula on
every parsed expression.  At "9007199254740993+0d6" the modifier is
2^53 + 1, whose conversion to a double rounds to 2^53 (ties to even), so
the code returns 9007199254740992.0 while the exact formula gives
9007199254740993. -/
theorem C7_counterexample :
    parse_expression "9007199254740993+0d6"
        = .ok ⟨[⟨0, 6, 1⟩], [⟨9007199254740993⟩]⟩ ∧
    expected_value "9007199254740993+0d6"
        = .ok (.float (.finite (9007199254740992 * ((pow2 1074 : Nat) : Int)))) ∧
    expectedValueExactSpec ⟨[⟨0, 6, 1⟩], [⟨9007199254740993⟩]⟩ = 9007199254740993 ∧
    ¬ ∃ res : PyNum, expected_value "9007199254740993+0d6" = .ok res ∧
        res.val? = some (expectedValueExactSpec ⟨[⟨0, 6, 1⟩], [⟨9007199254740993⟩]⟩) := by
  have hev : expected_value "9007199254740993+0d6"
      = .ok (.float (.finite (9007199254740992 * ((pow2 1074 : Nat) : Int)))) := rfl
  have hspec : expectedValueExactSpec ⟨[⟨0, 6, 1⟩], [⟨9007199254740993⟩]⟩
      = 9007199254740993 := by
    norm_num [expectedValueExactSpec, DiceExpression.modifier_total]
  refine ⟨rfl, hev, hspec, ?_⟩
  rintro ⟨res, h1, h2⟩
  rw [hev] at h1
  simp only [Except.ok.injEq] at h1
  subst h1
  rw [hspec] at h2
  simp only [PyNum.val?, Option.some.injEq] at h2
  have hq : ((pow2 1074 : Nat) : ℚ) ≠ 0 := by
    rw [show ((pow2 1074 : Nat) : ℚ) = ((pow2 1074 : Nat) : ℚ) from rfl]
    exact_mod_cast (pow2_pos 1074).ne'
  rw [show (((9007199254740992 * ((pow2 1074 : Nat) : Int) : Int) : ℚ))
        = 9007199254740992 * ((pow2 1074 : Nat) : ℚ) by push_cast; ring] at h2
  rw [mul_div_assoc, div_self hq, mul_one] at h2
  norm_num at h2

/-- C7 amended: expected_value computes modifier_total plus, per dice term
in parse order, sign * count * (size + 1) / 2, in Python float arithmetic
(binary64 with round-to-nearest-even) and with no random source; whenever
every doubled term value and every doubled partial sum fits in 53 bits no
rounding occurs and the result's value equals the exact formula. -/
theorem C7_amended_float_semantics (expr : String) (parsed : DiceExpression)
    (h : parse_expression expr = .ok parsed)
    (hterms : ∀ t ∈ parsed.dice, (termInt t).natAbs ≤ 2 ^ 53)
    (hsums : ∀ i,
      (2 * parsed.modifier_total + sumTermInt (parsed.dice.take i)).natAbs ≤ 2 ^ 53) :
    ∃ res, expected_value expr = .ok res ∧
      res.val? = some (expectedValueExactSpec parsed) := by
  have hval : ∀ x : Int,
      (PyNum.float (.finite (x * ((pow2 1073 : Nat) : Int)))).val? = some ((x : ℚ) / 2) := by
    intro x
    simp only [PyNum.val?, Option.some.injEq]
    have hq : ((pow2 1073 : Nat) : ℚ) ≠ 0 := by
      exact_mod_cast (pow2_pos 1073).ne'
    rw [show (((x * ((pow2 1073 : Nat) : Int) : Int) : ℚ))
          = (x : ℚ) * ((pow2 1073 : Nat) : ℚ) by push_cast; ring]
    rw [show ((pow2 1074 : Nat) : ℚ) = ((pow2 1073 : Nat) : ℚ) * 2 by
      rw [show (1074 : Nat) = 1073 + 1 from rfl, pow2_succ]; push_cast; ring]
    rw [div_mul_eq_div_div, mul_div_assoc, div_self hq, mul_one]
  have hspec : expectedValueExactSpec parsed
      = ((2 * parsed.modifier_total + sumTermInt parsed.dice : Int) : ℚ) / 2 := by
    simp only [expectedValueExactSpec]
    rw [spec_sum_halved]
    push_cast [sumTermInt_cast]
    ring
  simp only [expected_value, h, ok_bind]
  rcases hd : parsed.dice with _ | ⟨t, ts⟩
  · refine ⟨.int parsed.modifier_total, rfl, ?_⟩
    simp only [PyNum.val?, Option.some.injEq, expectedValueExactSpec, hd,
      List.map_nil, List.sum_nil, zero_add]
  · have hM : (2 * parsed.modifier_total).natAbs ≤ 2 ^ 53 := by
      have h0 := hsums 0
      simpa [sumTermInt] using h0
    have hk : (termInt t).natAbs ≤ 2 ^ 53 := hterms t (by rw [hd]; exact List.mem_cons_self t ts)
    have hS1 : (2 * parsed.modifier_total + termInt t).natAbs ≤ 2 ^ 53 := by
      have h1 := hsums 1
      rw [hd] at h1
      simpa [sumTermInt] using h1
    simp only [evAddTerms]
    rw [intDiv2Double_exact (termInt t) hk]
    simp only [ok_bind, pyNumAddFloat]
    rw [intToDouble_exact parsed.modifier_total hM]
    simp only [ok_bind, floatAdd]
    rw [show parsed.modifier_total * ((pow2 1074 : Nat) : Int)
          + termInt t * ((pow2 1073 : Nat) : Int)
        = (2 * parsed.modifier_total + termInt t) * ((pow2 1073 : Nat) : Int) by
      rw [show ((pow2 1074 : Nat) : Int) = 2 * ((pow2 1073 : Nat) : Int) by
        rw [show (1074 : Nat) = 1073 + 1 from rfl, pow2_succ]; push_cast; ring]
      ring]
    rw [roundScaled_eq_self _ (dvd_mul_left _ _) (scaled_bound _ hS1)]
    rw [evAddTerms_exact ts (2 * parsed.modifier_total + termInt t)
      (fun u hu => hterms u (by rw [hd]; exact List.mem_cons_of_mem t hu))
      (fun i => by
        have h2 := hsums (i + 1)
        rw [hd] at h2
        simpa [sumTermInt, add_assoc] using h2)]
    refine ⟨_, rfl, ?_⟩
    rw [hval]
    rw [hspec, hd]
    rw [show 2 * parsed.modifier_total + termInt t + sumTermInt ts
          = 2 * parsed.modifier_total + sumTermInt (t :: ts) by
      simp [sumTermInt]; ring]

set_option maxRecDepth 100000 in
/-- Witness for the amended C7: expectedValue("1d6") computes 3.5 (the
double 7 * 2^-1) and expectedValue("2d4+2") computes 7.0, both equal to
their exact formula values. -/
theorem C7_amended_float_semantics_witness :
    expected_value "1d6" = .ok (.float (.finite (7 * ((pow2 1073 : Nat) : Int)))) ∧
    expected_value "2d4+2" = .ok (.float (.finite (7 * ((pow2 1074 : Nat) : Int)))) ∧
    expectedValueExactSpec ⟨[⟨1, 6, 1⟩], []⟩ = 7 / 2 ∧
    expectedValueExactSpec ⟨[⟨2, 4, 1⟩], [⟨2⟩]⟩ = 7 ∧
    ∃ res, expected_value "1d6" = .ok res ∧
      res.val? = some (expectedValueExactSpec ⟨[⟨1, 6, 1⟩], []⟩) := by
  refine ⟨rfl, rfl, ?_, ?_,
    C7_amended_float_semantics "1d6" ⟨[⟨1, 6, 1⟩], []⟩ rfl ?_ ?_⟩
  · norm_num [expectedValueExactSpec, DiceExpression.modifier_total]
  · norm_num [expectedValueExactSpec, DiceExpression.modifier_total]
  · intro t ht
    simp only [List.mem_singleton] at ht
    subst ht
    decide
  · intro i
    rcases i with _ | i
    · decide
    · simp only [List.take_succ_cons, List.take_nil]
      decide

/-- C10: for every character whose lower-cased skill name is in its
expertise set, the skill modifier is the governing ability's modifier plus
exactly twice the proficiency bonus, regardless of the proficient set (the
single bonus is not added on top). -/
theorem C10_expertise_skill_modifier (c : Character) (skill ab : String) (m p : Int)
    (hmap : SKILL_ABILITIES (strLower skill) = some ab)
    (hexp : strLower skill ∈ c.expertise_skills)
    (hmod : c.abilities.modifier ab = .ok m)
    (hpb : proficiency_bonus c.level = .ok p) :
    c.skill_modifier skill = .ok (m + 2 * p) := by
  simp only [Character.skill_modifier, hmap, hmod, ok_bind]
  rw [if_pos hexp]
  simp only [hpb, ok_bind]

/-- Witness for C10: the level-5 character with dexterity 16, proficient and
expert in stealth, has skill modifier 3 + 2 * 3 = 9. -/
theorem C10_expertise_skill_modifier_witness :
    nyx.skill_modifier "stealth" = .ok 9 :=
  C10_expertise_skill_modifier nyx "stealth" "dexterity" 3 3 rfl (by decide) rfl rfl

/-- C1: for every expression whose parse succeeds, roll returns the
modifier-sum plus, per dice term in parse order, the signed sum of that
term's raw draws (subtotalOf t r = sum(r) * sign); dice_results holds one
inner sequence per term in parse order with the individual values negated
when the sign is not positive (shownOf); the modifiers field is the flat
list of modifier values; and every raw draw lies in [1, size]. -/
theorem C1_roll_structure (expr : String) (parsed : DiceExpression) (rng : Rng)
    (h : parse_expression expr = .ok parsed) :
    roll expr rng = .ok
      (⟨parsed.modifier_total
          + (List.zipWith subtotalOf parsed.dice (rawDraws parsed.dice rng).1).sum,
        List.zipWith shownOf parsed.dice (rawDraws parsed.dice rng).1,
        parsed.modifiers.map ModifierTerm.value⟩,
       (rawDraws parsed.dice rng).2) ∧
    ∀ pr ∈ parsed.dice.zip (rawDraws parsed.dice rng).1,
      ∀ v ∈ pr.2, 1 ≤ v ∧ v ≤ pr.1.size := by
  constructor
  · simp only [roll, h, ok_bind, rollTerms_eq]
  · exact rawDraws_bounds parsed.dice rng
      (fun t ht => (parse_ok_dice_inv expr parsed h t ht).1)

/-- Witness for C1 at "2d6+1" with a concrete random source: the raw draws
are 1 and 2, so the total is 1 + (1 + 2) = 4 and two stream values are
consumed. -/
theorem C1_roll_structure_witness :
    roll "2d6+1" cRngId = .ok (⟨4, [[1, 2]], [1]⟩, ⟨cRngId.stream, 2⟩) :=
  (C1_roll_structure "2d6+1" ⟨[⟨2, 6, 1⟩], [⟨1⟩]⟩ cRngId rfl).1

/-- C3: for every modifier, dc and valid advantage state, resolve_check
returns a result whose natural is the kept d20 value obtained from the
dispatched roller, whose total is natural + modifier, whose success holds
exactly when total >= dc, and whose roll_details is exactly [natural] for
the normal state and exactly the two raw draws in draw order for
advantage/disadvantage. -/
theorem C3_resolve_check_shape (m dc : Int) (s : String) (rng : Rng)
    (h : validState s) :
    ∃ res rng1,
      resolve_check m dc s rng = .ok (res, rng1) ∧
      _roll_d20 s rng = .ok ((res.natural, res.roll_details), rng1) ∧
      res.total = (res.natural : Int) + m ∧
      res.modifier = m ∧
      res.dc = dc ∧
      (res.success = true ↔ res.total ≥ dc) ∧
      (strLower s = "normal" → res.roll_details = [res.natural]) ∧
      ((strLower s = "advantage" ∨ strLower s = "disadvantage") →
        res.roll_details = [(rng.randint 1 20).1, ((rng.randint 1 20).2.randint 1 20).1]) := by
  rcases h with hs | hs | hs
  · refine ⟨_, _, resolve_check_eq m dc s rng _ _ _ (_roll_d20_normal s rng hs),
      _roll_d20_normal s rng hs, rfl, rfl, rfl, by simp, fun _ => rfl, ?_⟩
    rintro (hc | hc) <;> rw [hs] at hc <;> exact absurd hc (by decide)
  · refine ⟨_, _, resolve_check_eq m dc s rng _ _ _ (_roll_d20_advantage s rng hs),
      _roll_d20_advantage s rng hs, rfl, rfl, rfl, by simp, ?_, fun _ => rfl⟩
    intro hc
    rw [hs] at hc
    exact absurd hc (by decide)
  · refine ⟨_, _, resolve_check_eq m dc s rng _ _ _ (_roll_d20_disadvantage s rng hs),
      _roll_d20_disadvantage s rng hs, rfl, rfl, rfl, by simp, ?_, fun _ => rfl⟩
    intro hc
    rw [hs] at hc
    exact absurd hc (by decide)

/-- Witness for C3 at modifier 5, dc 10, the normal state and a concrete
random source. -/
theorem C3_resolve_check_shape_witness :
    ∃ res rng1,
      resolve_check 5 10 "normal" cRngId = .ok (res, rng1) ∧
      _roll_d20 "normal" cRngId = .ok ((res.natural, res.roll_details), rng1) ∧
      res.total = (res.natural : Int) + 5 ∧
      res.modifier = 5 ∧
      res.dc = 10 ∧
      (res.success = true ↔ res.total ≥ 10) ∧
      (strLower "normal" = "normal" → res.roll_details = [res.natural]) ∧
      ((strLower "normal" = "advantage" ∨ strLower "normal" = "disadvantage") →
        res.roll_details =
          [(cRngId.randint 1 20).1, ((cRngId.randint 1 20).2.randint 1 20).1]) :=
  C3_resolve_check_shape 5 10 "normal" cRngId (by decide)

/-- C2: for every pair of modifiers and valid advantage states,
resolve_contest resolves check A from the shared random source and check B
from the state A leaves behind (so all of A's draws happen before any of
B's), both checks use dc = 0, and the winner is "a" when total_a > total_b,
"b" when total_b > total_a, and none on a tie. -/
theorem C2_resolve_contest_shape (ma mb : Int) (aa ab : String) (rng : Rng)
    (ha : validState aa) (hb : validState ab) :
    ∃ ca rngA cb rngB w,
      resolve_check ma 0 aa rng = .ok (ca, rngA) ∧
      resolve_check mb 0 ab rngA = .ok (cb, rngB) ∧
      ca.dc = 0 ∧ cb.dc = 0 ∧
      resolve_contest ma mb aa ab rng = .ok (⟨ca.total, cb.total, w, ca, cb⟩, rngB) ∧
      (w = some "a" ↔ ca.total > cb.total) ∧
      (w = some "b" ↔ cb.total > ca.total) ∧
      (w = none ↔ ca.total = cb.total) := by
  obtain ⟨ca, rngA, hA, hdcA, _⟩ := resolve_check_ok_of_valid ma 0 aa rng ha
  obtain ⟨cb, rngB, hB, hdcB, _⟩ := resolve_check_ok_of_valid mb 0 ab rngA hb
  refine ⟨ca, rngA, cb, rngB,
    if ca.total > cb.total then some "a"
    else if cb.total > ca.total then some "b" else none,
    hA, hB, hdcA, hdcB, ?_, ?_, ?_, ?_⟩
  · simp only [resolve_contest, hA, ok_bind, hB]
  · split_ifs with h1 h2 <;> simp <;> omega
  · split_ifs with h1 h2 <;> simp <;> omega
  · split_ifs with h1 h2 <;> simp <;> omega

/-- Witness for C2 at modifiers 4 and 1, both normal, and a concrete random
source. -/
theorem C2_resolve_contest_shape_witness :
    ∃ ca rngA cb rngB w,
      resolve_check 4 0 "normal" cRngId = .ok (ca, rngA) ∧
      resolve_check 1 0 "normal" rngA = .ok (cb, rngB) ∧
      ca.dc = 0 ∧ cb.dc = 0 ∧
      resolve_contest 4 1 "normal" "normal" cRngId = .ok (⟨ca.total, cb.total, w, ca, cb⟩, rngB) ∧
      (w = some "a" ↔ ca.total > cb.total) ∧
      (w = some "b" ↔ cb.total > ca.total) ∧
      (w = none ↔ ca.total = cb.total) :=
  C2_resolve_contest_shape 4 1 "normal" "normal" cRngId (by decide) (by decide)

/-- C9: resolve_check accepts the three advantage-state strings
case-insensitively (validState tests the lower-cased string), and for any
other string it fails with the advantage-state ValueError, for every
random source alike (the dispatch raises before any draw), and
resolve_contest fails the same way when its first state is invalid. -/
theorem C9_advantage_state_validation (s : String) (m dc : Int) (rng : Rng) :
    (validState s → (resolve_check m dc s rng).isOk = true) ∧
    (¬ validState s →
      resolve_check m dc s rng
          = .error "Advantage state must be normal, advantage or disadvantage" ∧
      ∀ mb sb, resolve_contest m mb s sb rng
          = .error "Advantage state must be normal, advantage or disadvantage") := by
  constructor
  · intro h
    obtain ⟨res, rng1, heq, _, _⟩ := resolve_check_ok_of_valid m dc s rng h
    rw [heq]
    rfl
  · intro h
    have hn : ¬ strLower s = "normal" := fun hc => h (Or.inl hc)
    have hadv : ¬ strLower s = "advantage" := fun hc => h (Or.inr (Or.inl hc))
    have hdis : ¬ strLower s = "disadvantage" := fun hc => h (Or.inr (Or.inr hc))
    have hroll : _roll_d20 s rng
        = .error "Advantage state must be normal, advantage or disadvantage" := by
      simp only [_roll_d20, if_neg hn, if_neg hadv, if_neg hdis]
    have hrc : ∀ m2 dc2 : Int, resolve_check m2 dc2 s rng
        = .error "Advantage state must be normal, advantage or disadvantage" := by
      intro m2 dc2
      simp only [resolve_check, hroll, error_bind]
    refine ⟨hrc m dc, ?_⟩
    intro mb sb
    simp only [resolve_contest, hrc m 0, error_bind]

/-- Witness for C9: a mixed-case valid state succeeds and an invalid state
fails with the ValueError, at concrete inputs. -/
theorem C9_advantage_state_validation_witness :
    (resolve_check 0 10 "NoRmAl" cRngId).isOk = true ∧
    resolve_check 0 10 "sideways" cRngId
        = .error "Advantage state must be normal, advantage or disadvantage" :=
  ⟨(C9_advantage_state_validation "NoRmAl" 0 10 cRngId).1 (by decide),
   ((C9_advantage_state_validation "sideways" 0 10 cRngId).2 (by decide)).1⟩

/-- C5 counterexample: a stray dangling sign is not rejected.  The tokenizer
regex simply never matches a sign with nothing following, so "2d6+" parses
as 2d6 and "+-3" parses as -3, contradicting the claim that such inputs
fail. -/
theorem C5_counterexample :
    parse_expression "2d6+" = .ok ⟨[⟨2, 6, 1⟩], []⟩ ∧
    parse_expression "+-3" = .ok ⟨[], [⟨-3⟩]⟩ :=
  ⟨rfl, rfl⟩

/-- C5 amended: parse fails exactly when the input is empty after space
removal, when the tokenizer matches no token at all (the input consists
only of signs), or when some matched token is invalid; a dangling sign
followed by another sign or by the end of the input is skipped by the
tokenizer rather than rejected. -/
theorem C5_amended_failure_characterisation (expr : String) :
    (parse_expression expr).isOk = false ↔
      (expr.data.filter (fun c => c ≠ ' ') = [] ∨
       tokenize (expr.data.filter (fun c => c ≠ ' ')) = [] ∨
       ∃ tk ∈ tokenize (expr.data.filter (fun c => c ≠ ' ')),
         (_parse_token tk).isOk = false) := by
  simp only [parse_expression]
  by_cases hL : expr.data.filter (fun c => c ≠ ' ') = []
  · rw [if_pos hL]
    simp only [isOk_error]
    exact iff_of_true trivial (Or.inl hL)
  · rw [if_neg hL]
    cases hp : parseTokens (tokenize (expr.data.filter (fun c => c ≠ ' '))) with
    | error e =>
      simp only [error_bind, isOk_error]
      exact iff_of_true trivial
        (Or.inr (Or.inr ((parseTokens_isOk_false_iff _).mp (by rw [hp]; rfl))))
    | ok rs =>
      simp only [ok_bind]
      split
      · rename_i hboth
        have hrs : rs = [] := by
          rcases rs with _ | ⟨r, rs2⟩
          · rfl
          · exfalso
            rcases r with d | mo
            · exact absurd hboth.1 (by simp [List.filterMap_cons])
            · exact absurd hboth.2 (by simp [List.filterMap_cons])
        have htk : tokenize (expr.data.filter (fun c => c ≠ ' ')) = [] := by
          have hlen := parseTokens_ok_length _ _ hp
          rw [hrs] at hlen
          exact List.length_eq_zero.mp hlen.symm
        simp only [isOk_error]
        exact iff_of_true trivial (Or.inr (Or.inl htk))
      · rename_i hnboth
        simp only [isOk_ok]
        constructor
        · intro hfalse
          exact absurd hfalse (by simp)
        · rintro (h1 | h2 | h3)
          · exact absurd h1 hL
          · rw [h2] at hp
            simp only [parseTokens, Except.ok.injEq] at hp
            subst hp
            exact (hnboth ⟨rfl, rfl⟩).elim
          · have hfail := (parseTokens_isOk_false_iff _).mpr h3
            rw [hp] at hfail
            exact absurd hfail (by simp [isOk_ok])

end Dnd
